import Mathlib

/-!
Verification of the DTMF tone-detection pipeline from `vDSPExamples/DTMF.c`.

The C program synthesizes a noisy two-tone signal for a telephone key, runs a
real FFT over it (via the external vDSP library), and picks the two candidate
frequencies with the largest spectral energy.  We embed the self-contained
logic shallowly:

* machine arithmetic on the 32-bit PRNG state is `Nat` with explicit `% 2 ^ 32`;
* `float`/`double` arithmetic is idealized as exact rational arithmetic `ℚ`;
* the C `(int)` cast of a nonnegative value is truncation toward zero (`ctrunc`);
* the math-library `sin` is an abstract parameter `sinf : ℚ → ℚ` (it is an
  external collaborator, like the FFT itself);
* the spectrum memory handed to `FindTone` is a pair of total functions
  `re im : ℤ → ℚ` (C reads whatever lies at the computed index).
-/

/-- The sampling rate in Hz (`SamplingFrequency` in DTMF.c), as a rational. -/
def SamplingFrequency : ℚ := 3266

/-- Base-two logarithm of the number of samples (`Log2SampleLength`). -/
def Log2SampleLength : ℕ := 8

/-- The number of signal samples, `1 << Log2SampleLength = 256`. -/
def SampleLength : ℕ := 2 ^ Log2SampleLength

/-- The exact rational value of the hexadecimal floating literal
`0x3.243f6a8885a308d313198a2e03707344ap1` used for `TwoPi` in DTMF.c. -/
def TwoPi : ℚ := 0x3243f6a8885a308d313198a2e03707344a * 2 / 16 ^ 33

/-- A pair of DTMF frequencies, mirroring `struct { float Frequency[2]; }`.
`f0` is `Frequency[0]` (low group), `f1` is `Frequency[1]` (high group). -/
structure FrequencyPair where
  f0 : ℚ
  f1 : ℚ
deriving DecidableEq, Repr

/-- The key table `static char Keys[] = "123A456B789C*0#D"`. -/
def Keys : List Char :=
  ['1', '2', '3', 'A', '4', '5', '6', 'B', '7', '8', '9', 'C', '*', '0', '#', 'D']

/-- Low-group DTMF frequencies `DTMF0`. -/
def DTMF0 : List ℚ := [1209, 1336, 1477, 1633]

/-- High-group DTMF frequencies `DTMF1`. -/
def DTMF1 : List ℚ := [697, 770, 852, 941]

/-- Index of the first occurrence of `c` in the NUL-terminated C string whose
characters are `l`, mirroring the pointer difference `strchr(s, c) - s`.
C's `strchr` regards the terminating NUL as part of the string, so searching
for the NUL character finds it at position `l.length`; `none` mirrors a null
`strchr` result. -/
def strchrIdx (c : Char) : List Char → Option ℕ
  | [] => if Char.ofNat 0 = c then some 0 else none
  | k :: rest => if k = c then some 0 else (strchrIdx c rest).map (· + 1)

/-- `ConvertKeyToFrequencies` from DTMF.c: look `Key` up in `Keys`; if
`strchr` misses, return the zero pair, else return
`(DTMF0[n % 4], DTMF1[n / 4])` for the matched position `n`.  For the NUL
character `strchr` matches the terminator, so `n = 16` and the C code reads
`DTMF0[0]` and the out-of-bounds `DTMF1[4]`; `getD`'s default stands for that
unspecified out-of-bounds value, and no theorem relies on it. -/
def ConvertKeyToFrequencies (Key : Char) : FrequencyPair :=
  match strchrIdx Key Keys with
  | none => ⟨0, 0⟩
  | some n => ⟨DTMF0.getD (n % 4) 0, DTMF1.getD (n / 4) 0⟩

/-- ASCII `toupper` as used by `main` (both the interactive and the
command-line-argument paths call `toupper` before the table lookup). -/
def toupperC (c : Char) : Char :=
  if 'a' ≤ c ∧ c ≤ 'z' then Char.ofNat (c.toNat - 32) else c

lemma strchrIdx_eq_none_iff (c : Char) : ∀ l : List Char,
    strchrIdx c l = none ↔ c ∉ l ∧ c ≠ Char.ofNat 0 := by
  intro l
  induction l with
  | nil =>
    by_cases h : Char.ofNat 0 = c
    · subst h
      simp [strchrIdx]
    · simp only [strchrIdx, if_neg h, List.not_mem_nil, not_false_iff, true_and]
      constructor
      · intro _
        exact fun hc => h hc.symm
      · intro _
        trivial
  | cons k rest ih =>
    by_cases hk : k = c
    · subst hk
      simp [strchrIdx]
    · simp only [strchrIdx, if_neg hk, Option.map_eq_none', List.mem_cons, ih]
      constructor
      · rintro ⟨hnm, hnz⟩
        refine ⟨?_, hnz⟩
        rintro (rfl | hm)
        · exact hk rfl
        · exact hnm hm
      · rintro ⟨hmem, hnz⟩
        exact ⟨fun hm => hmem (Or.inr hm), hnz⟩

/-! ### Pseudo-random number generator (`Random` in DTMF.c) -/

/-- The linear-congruential state update `Seed = 1664525 * Seed + 1013904223`
on the 32-bit state, with the wrap-around made explicit. -/
def nextState (s : ℕ) : ℕ := (1664525 * s + 1013904223) % 2 ^ 32

/-- `Random` from DTMF.c (named `RandomC` here, since Mathlib already has a
`Random` class): advance the state, then return
`(Seed >> 8) * (1.f/16777216)` together with the new state.  The float
arithmetic is exact here: the shifted value is below `2 ^ 24`. -/
def RandomC (s : ℕ) : ℚ × ℕ :=
  ((nextState s / 2 ^ 8 : ℕ) * ((1 : ℚ) / 16777216), nextState s)

/-- The value produced by the `(k+1)`-st call to `Random` starting from
state `s`. -/
def randVal (s : ℕ) (k : ℕ) : ℚ := (RandomC (nextState^[k] s)).1

/-- The stream of values obtained by calling `Random` repeatedly from state
`s`; `randStream s n` is the `(n+1)`-st value. -/
def randStream (s : ℕ) : ℕ → ℚ := randVal s

/-! ### Tone classification (`FindTone` in DTMF.c) -/

/-- The C conversion of a `float`/`double` to `int`: truncation toward zero. -/
def ctrunc (q : ℚ) : ℤ := if q < 0 then ⌈q⌉ else ⌊q⌋

/-- The bin-index computation of `FindTone`:
`int index = Frequencies[i] / SamplingFrequency * SampleLength + .5`. -/
def binIndexC (f : ℚ) : ℤ :=
  ctrunc (f / SamplingFrequency * (SampleLength : ℚ) + 1 / 2)

/-- The squared amplitude `re*re + im*im` that `FindTone` computes for a
candidate frequency, reading the spectrum memory at the computed bin. -/
def score (re im : ℤ → ℚ) (f : ℚ) : ℚ :=
  re (binIndexC f) * re (binIndexC f) + im (binIndexC f) * im (binIndexC f)

/-- The loop of `FindTone`: `i` is the position of the list head in the
original array, `maxVal`/`maxIdx` are `MaximumValue`/`MaximumIndex`. -/
def FindToneAux (re im : ℤ → ℚ) : List ℚ → ℕ → ℚ → ℕ → ℕ
  | [], _, _, maxIdx => maxIdx
  | f :: rest, i, maxVal, maxIdx =>
    if maxVal < score re im f then FindToneAux re im rest (i + 1) (score re im f) i
    else FindToneAux re im rest (i + 1) maxVal maxIdx

/-- `FindTone` from DTMF.c: return the index (into `freqs`) of the candidate
frequency with the greatest squared amplitude in the spectrum `(re, im)`.
`MaximumValue` starts at `-1` and `MaximumIndex` at `0`. -/
def FindTone (re im : ℤ → ℚ) (freqs : List ℚ) : ℕ :=
  FindToneAux re im freqs 0 (-1) 0

/-- The bin index as the specification words it: `floor(x + 0.5)` rounding of
`f / samplingRateHz * sampleCount`. -/
def specBin (f : ℚ) : ℤ := ⌊f / SamplingFrequency * (SampleLength : ℚ) + 1 / 2⌋

/-- The per-candidate squared magnitude as the specification words it, read at
the `specBin` bin. -/
def specScore (re im : ℤ → ℚ) (f : ℚ) : ℚ :=
  re (specBin f) * re (specBin f) + im (specBin f) * im (specBin f)

/-! ### Signal synthesis (the synthesis loops of `Demonstrate` in DTMF.c) -/

/-- Draw `n` pseudo-random values in order, threading the state. -/
def randList : ℕ → ℕ → List ℚ × ℕ
  | 0, s => ([], s)
  | n + 1, s =>
    ((RandomC s).1 :: (randList n (RandomC s).2).1, (randList n (RandomC s).2).2)

/-- Add the tone `sin((i * f / SamplingFrequency + phase) * TwoPi)` to every
sample, `i` counting from the given start index; `sinf` stands for the
external math-library sine. -/
def addToneFrom (f phase : ℚ) (sinf : ℚ → ℚ) : ℕ → List ℚ → List ℚ
  | _, [] => []
  | i, x :: rest =>
    (x + sinf ((i * f / SamplingFrequency + phase) * TwoPi))
      :: addToneFrom f phase sinf (i + 1) rest

/-- The signal-synthesis part of `Demonstrate` (DTMF.c lines 180-196):
fill the buffer with `4 * Random()` noise, draw a phase and add the first
tone, draw another phase and add the second tone.  Returns the buffer and
the final PRNG state. -/
def synthesize (F : FrequencyPair) (sampleCount : ℕ) (sinf : ℚ → ℚ) (s : ℕ) :
    List ℚ × ℕ :=
  let noise := (randList sampleCount s).1
  let s1 := (randList sampleCount s).2
  let base := noise.map (fun r => 4 * r)
  let phase0 := (RandomC s1).1
  let s2 := (RandomC s1).2
  let sig1 := addToneFrom F.f0 phase0 sinf 0 base
  let phase1 := (RandomC s2).1
  let s3 := (RandomC s2).2
  (addToneFrom F.f1 phase1 sinf 0 sig1, s3)

/-! ### Batch key processing (the argument loop of `main` in DTMF.c) -/

/-- The lookup `ConvertKeyToFrequencies(toupper(c))` that `main` performs on
each input character, in the interactive path (line 269) as well as in the
command-line-argument path (line 296). -/
def lookupKey (c : Char) : FrequencyPair := ConvertKeyToFrequencies (toupperC c)

/-- What happens to one key character: either the FFT demonstration runs on
its frequency pair, or the key is reported as not recognized. -/
inductive KeyResult where
  | demonstrated : FrequencyPair → KeyResult
  | unknownKey : Char → KeyResult
deriving DecidableEq, Repr

/-- The key loop of `main` for a command-line argument: each character is
upper-cased and looked up; a valid key (nonzero first frequency) runs the
synthesis inside `Demonstrate` (consuming pseudo-random state), an unknown
key only produces an error report and consumes nothing. -/
def processKeysM (sinf : ℚ → ℚ) : List Char → ℕ → List KeyResult × ℕ
  | [], s => ([], s)
  | c :: rest, s =>
    let F := lookupKey c
    if F.f0 ≠ 0 then
      let s1 := (synthesize F SampleLength sinf s).2
      let r := processKeysM sinf rest s1
      (KeyResult.demonstrated F :: r.1, r.2)
    else
      let r := processKeysM sinf rest s
      (KeyResult.unknownKey c :: r.1, r.2)

/-! ### Helper lemmas -/

lemma RandomC_snd (s : ℕ) : (RandomC s).2 = nextState s := rfl

lemma randList_snd (n : ℕ) : ∀ s : ℕ, (randList n s).2 = nextState^[n] s := by
  induction n with
  | zero => intro s; rfl
  | succ n ih =>
    intro s
    rw [randList, ih, Function.iterate_succ_apply, RandomC_snd]

lemma randList_length (n : ℕ) : ∀ s : ℕ, (randList n s).1.length = n := by
  induction n with
  | zero => intro s; rfl
  | succ n ih =>
    intro s
    rw [randList, List.length_cons, ih]

lemma randList_getD (n : ℕ) : ∀ s i : ℕ, i < n →
    (randList n s).1.getD i 0 = randVal s i := by
  induction n with
  | zero => intro s i hi; exact absurd hi (Nat.not_lt_zero i)
  | succ n ih =>
    intro s i hi
    cases i with
    | zero => rw [randList]; rfl
    | succ j =>
      rw [randList, List.getD_cons_succ, ih _ j (Nat.lt_of_succ_lt_succ hi)]
      unfold randVal
      rw [Function.iterate_succ_apply, RandomC_snd]

lemma addToneFrom_length (f phase : ℚ) (sinf : ℚ → ℚ) :
    ∀ (l : List ℚ) (i : ℕ), (addToneFrom f phase sinf i l).length = l.length := by
  intro l
  induction l with
  | nil => intro i; rfl
  | cons x rest ih =>
    intro i
    rw [addToneFrom, List.length_cons, List.length_cons, ih]

lemma addToneFrom_getD (f phase : ℚ) (sinf : ℚ → ℚ) :
    ∀ (l : List ℚ) (i j : ℕ), j < l.length →
      (addToneFrom f phase sinf i l).getD j 0 =
        l.getD j 0 + sinf ((((i + j : ℕ) : ℚ) * f / SamplingFrequency + phase) * TwoPi) := by
  intro l
  induction l with
  | nil => intro i j hj; exact absurd hj (Nat.not_lt_zero j)
  | cons x rest ih =>
    intro i j hj
    cases j with
    | zero =>
      rw [addToneFrom, List.getD_cons_zero, List.getD_cons_zero]
      norm_num
    | succ j' =>
      rw [addToneFrom, List.getD_cons_succ, List.getD_cons_succ,
        ih (i + 1) j' (by simpa using Nat.lt_of_succ_lt_succ hj)]
      have h : ((i + 1 + j' : ℕ) : ℚ) = ((i + (j' + 1) : ℕ) : ℚ) := by push_cast; ring
      rw [h]

lemma getD_mem_of_lt {l : List ℚ} {j : ℕ} (h : j < l.length) : l.getD j 0 ∈ l := by
  rw [List.getD_eq_getElem l 0 h]
  exact List.getElem_mem h

/-- Invariant of the `FindTone` loop: starting at array position `i` with the
running maximum `v` recorded at `m`, either no candidate beats `v` and `m` is
returned, or the returned position is `i + k` where `k` is the first position
of the (strictly updated) maximum of the remaining scores. -/
lemma FindToneAux_spec (re im : ℤ → ℚ) (l : List ℚ) :
    ∀ (i : ℕ) (v : ℚ) (m : ℕ),
      (FindToneAux re im l i v m = m ∧
        ∀ j, j < l.length → score re im (l.getD j 0) ≤ v) ∨
      (∃ k, k < l.length ∧ FindToneAux re im l i v m = i + k ∧
        v < score re im (l.getD k 0) ∧
        (∀ j, j < k → score re im (l.getD j 0) < score re im (l.getD k 0)) ∧
        (∀ j, j < l.length → score re im (l.getD j 0) ≤ score re im (l.getD k 0))) := by
  induction l with
  | nil =>
    intro i v m
    left
    exact ⟨rfl, fun j hj => absurd hj (Nat.not_lt_zero j)⟩
  | cons f rest ih =>
    intro i v m
    by_cases hv : v < score re im f
    · rcases ih (i + 1) (score re im f) i with ⟨heq, hle⟩ | ⟨k, hk, heq, hvlt, hstrict, hle⟩
      · right
        refine ⟨0, by simp, ?_, ?_, ?_, ?_⟩
        · rw [FindToneAux, if_pos hv, heq]
          omega
        · rw [List.getD_cons_zero]
          exact hv
        · intro j hj
          exact absurd hj (Nat.not_lt_zero j)
        · intro j hj
          cases j with
          | zero => rw [List.getD_cons_zero]
          | succ j' =>
            rw [List.getD_cons_succ, List.getD_cons_zero]
            exact hle j' (by simp only [List.length_cons] at hj; omega)
      · right
        refine ⟨k + 1, by simp only [List.length_cons]; omega, ?_, ?_, ?_, ?_⟩
        · rw [FindToneAux, if_pos hv, heq]
          omega
        · rw [List.getD_cons_succ]
          exact lt_trans hv hvlt
        · intro j hj
          cases j with
          | zero =>
            rw [List.getD_cons_zero, List.getD_cons_succ]
            exact hvlt
          | succ j' =>
            rw [List.getD_cons_succ, List.getD_cons_succ]
            exact hstrict j' (by omega)
        · intro j hj
          cases j with
          | zero =>
            rw [List.getD_cons_zero, List.getD_cons_succ]
            exact le_of_lt hvlt
          | succ j' =>
            rw [List.getD_cons_succ, List.getD_cons_succ]
            exact hle j' (by simp only [List.length_cons] at hj; omega)
    · rcases ih (i + 1) v m with ⟨heq, hle⟩ | ⟨k, hk, heq, hvlt, hstrict, hle⟩
      · left
        refine ⟨?_, ?_⟩
        · rw [FindToneAux, if_neg hv]
          exact heq
        · intro j hj
          cases j with
          | zero =>
            rw [List.getD_cons_zero]
            exact le_of_not_lt hv
          | succ j' =>
            rw [List.getD_cons_succ]
            exact hle j' (by simp only [List.length_cons] at hj; omega)
      · right
        refine ⟨k + 1, by simp only [List.length_cons]; omega, ?_, ?_, ?_, ?_⟩
        · rw [FindToneAux, if_neg hv, heq]
          omega
        · rw [List.getD_cons_succ]
          exact hvlt
        · intro j hj
          cases j with
          | zero =>
            rw [List.getD_cons_zero, List.getD_cons_succ]
            exact lt_of_le_of_lt (le_of_not_lt hv) hvlt
          | succ j' =>
            rw [List.getD_cons_succ, List.getD_cons_succ]
            exact hstrict j' (by omega)
        · intro j hj
          cases j with
          | zero =>
            rw [List.getD_cons_zero, List.getD_cons_succ]
            exact le_of_lt (lt_of_le_of_lt (le_of_not_lt hv) hvlt)
          | succ j' =>
            rw [List.getD_cons_succ, List.getD_cons_succ]
            exact hle j' (by simp only [List.length_cons] at hj; omega)

lemma score_nonneg (re im : ℤ → ℚ) (f : ℚ) : 0 ≤ score re im f :=
  add_nonneg (mul_self_nonneg _) (mul_self_nonneg _)

lemma score_eq_specScore (re im : ℤ → ℚ) {f : ℚ} (h0 : 0 ≤ f) :
    score re im f = specScore re im f := by
  have h1 : 0 ≤ f / SamplingFrequency :=
    div_nonneg h0 (by norm_num [SamplingFrequency])
  have h2 : (0 : ℚ) ≤ f / SamplingFrequency * (SampleLength : ℚ) :=
    mul_nonneg h1 (by positivity)
  have h3 : ¬ (f / SamplingFrequency * (SampleLength : ℚ) + 1 / 2 < 0) := by linarith
  simp only [score, specScore, binIndexC, ctrunc, specBin, if_neg h3]

/-! ### Claim theorems -/

/-- Claim C1: on a non-empty list of nonnegative candidate frequencies,
`FindTone` scores each candidate `f` by reading the spectrum at bin
`floor(f / samplingRateHz * sampleCount + 0.5)` and squaring, and returns
the index of the candidate with the strictly greatest squared magnitude,
with ties going to the lower index (every earlier candidate scores strictly
less than the winner; every candidate scores at most the winner). -/
theorem findTone_argmax (re im : ℤ → ℚ) (freqs : List ℚ)
    (hne : freqs ≠ []) (hnn : ∀ f ∈ freqs, 0 ≤ f) :
    FindTone re im freqs < freqs.length ∧
    (∀ j, j < freqs.length →
      specScore re im (freqs.getD j 0)
        ≤ specScore re im (freqs.getD (FindTone re im freqs) 0)) ∧
    (∀ j, j < FindTone re im freqs →
      specScore re im (freqs.getD j 0)
        < specScore re im (freqs.getD (FindTone re im freqs) 0)) := by
  have hlen : 0 < freqs.length := List.length_pos.mpr hne
  rcases FindToneAux_spec re im freqs 0 (-1) 0 with ⟨heq, hle⟩ | ⟨k, hk, heq, hvlt, hstrict, hle⟩
  · exfalso
    have h0 := hle 0 hlen
    have h1 := score_nonneg re im (freqs.getD 0 0)
    linarith
  · have hft : FindTone re im freqs = k := by
      rw [FindTone, heq]
      omega
    rw [hft]
    refine ⟨hk, ?_, ?_⟩
    · intro j hj
      rw [← score_eq_specScore re im (hnn _ (getD_mem_of_lt hj)),
        ← score_eq_specScore re im (hnn _ (getD_mem_of_lt hk))]
      exact hle j hj
    · intro j hj
      rw [← score_eq_specScore re im (hnn _ (getD_mem_of_lt (lt_trans hj hk))),
        ← score_eq_specScore re im (hnn _ (getD_mem_of_lt hk))]
      exact hstrict j hj

/-- Witness for C1 at a concrete spectrum and the low-group candidate list. -/
theorem findTone_argmax_witness :
    FindTone (fun _ => 1) (fun _ => 0) [1209, 1336, 1477, 1633] < 4 :=
  (findTone_argmax (fun _ => 1) (fun _ => 0) [1209, 1336, 1477, 1633]
    (by decide) (by decide)).1

/-- Claim C10: for a non-empty candidate list `FindTone` returns an index
inside the list; for the empty list it returns `0` without consulting the
spectrum at all (the result is the same for every spectrum). -/
theorem findTone_range (re im : ℤ → ℚ) (freqs : List ℚ) :
    (freqs ≠ [] → FindTone re im freqs < freqs.length) ∧
    (∀ re' im' : ℤ → ℚ, FindTone re' im' [] = 0) := by
  constructor
  · intro hne
    rcases FindToneAux_spec re im freqs 0 (-1) 0 with ⟨heq, _⟩ | ⟨k, hk, heq, _, _, _⟩
    · rw [FindTone, heq]
      exact List.length_pos.mpr hne
    · rw [FindTone, heq]
      omega
  · intro re' im'
    rfl

/-- Witness for C10 on the high-group candidate list and the empty list. -/
theorem findTone_range_witness :
    FindTone (fun _ => 0) (fun _ => 0) [697, 770, 852, 941] < 4 ∧
    FindTone (fun _ => 0) (fun _ => 0) ([] : List ℚ) = 0 :=
  ⟨(findTone_range (fun _ => 0) (fun _ => 0) [697, 770, 852, 941]).1 (by decide),
   (findTone_range (fun _ => 0) (fun _ => 0) []).2 (fun _ => 0) (fun _ => 0)⟩

/-- Claim C2: the symbol at position `i` of the 16-symbol table `Keys` is
looked up to the pair `(DTMF0[i % 4], DTMF1[i / 4])`, i.e. low group
`{1209, 1336, 1477, 1633}` indexed by `i mod 4` and high group
`{697, 770, 852, 941}` indexed by `i / 4`. -/
theorem convertKey_position (i : Fin 16) :
    ConvertKeyToFrequencies (Keys.getD (i : ℕ) ' ')
      = ⟨DTMF0.getD ((i : ℕ) % 4) 0, DTMF1.getD ((i : ℕ) / 4) 0⟩ := by
  revert i
  decide

/-- Counterexample to claim C3: the lookup result for the out-of-alphabet
character `'x'` is exactly the zero-frequency pair, so the "not found"
result IS the zero pair the claim forbids as a sentinel. -/
theorem convertKey_zero_sentinel_cex :
    'x' ∉ Keys ∧ ConvertKeyToFrequencies 'x' = ⟨0, 0⟩ := by
  decide

/-- Claim C3 as amended: for every character that is neither in the
16-symbol alphabet nor the NUL character, the lookup returns the zero pair
`(0, 0)` as the "not found" sentinel, and the sentinel is distinguishable
from every valid pair, because every symbol in the alphabet maps to a pair
with both frequencies nonzero.  For the NUL character, however, `strchr`
matches the string terminator at position 16, so the lookup does not return
the sentinel: its low component is `DTMF0[16 mod 4] = 1209`, and its high
component is read past the end of `DTMF1`. -/
theorem convertKey_notFound (c : Char) (hc : c ∉ Keys) (hnul : c ≠ Char.ofNat 0) :
    ConvertKeyToFrequencies c = ⟨0, 0⟩ ∧
    (∀ k ∈ Keys, (ConvertKeyToFrequencies k).f0 ≠ 0 ∧
      (ConvertKeyToFrequencies k).f1 ≠ 0 ∧
      ConvertKeyToFrequencies k ≠ ConvertKeyToFrequencies c) ∧
    strchrIdx (Char.ofNat 0) Keys = some 16 ∧
    (ConvertKeyToFrequencies (Char.ofNat 0)).f0 = 1209 := by
  have h0 : strchrIdx c Keys = none := (strchrIdx_eq_none_iff c Keys).mpr ⟨hc, hnul⟩
  have hc0 : ConvertKeyToFrequencies c = ⟨0, 0⟩ := by
    unfold ConvertKeyToFrequencies
    rw [h0]
  refine ⟨hc0, ?_, by decide, by decide⟩
  intro k hk
  rw [hc0]
  fin_cases hk <;> exact ⟨by decide, by decide, by decide⟩

/-- Witness for the amended C3 at the concrete character `'x'`. -/
theorem convertKey_notFound_witness :
    ConvertKeyToFrequencies 'x' = ⟨0, 0⟩ ∧
    (ConvertKeyToFrequencies (Char.ofNat 0)).f0 = 1209 ∧
    ∀ k ∈ Keys, ConvertKeyToFrequencies k ≠ ConvertKeyToFrequencies 'x' :=
  ⟨(convertKey_notFound 'x' (by decide) (by decide)).1,
   (convertKey_notFound 'x' (by decide) (by decide)).2.2.2,
   fun k hk => ((convertKey_notFound 'x' (by decide) (by decide)).2.1 k hk).2.2⟩

/-- Claim C4: the key-to-pair mapping is injective on the 16 table positions
(hence a bijection onto the 16 possible low/high pairs), and the inverse
used in `Demonstrate` — `Keys[Tone1*4 + Tone0]` — round-trips: for all
classifier indices `a, b < 4`, the symbol at position `4*b + a` looks up to
exactly `(DTMF0[a], DTMF1[b])`. -/
theorem convertKey_bijection :
    Function.Injective
      (fun i : Fin 16 => ConvertKeyToFrequencies (Keys.getD (i : ℕ) ' ')) ∧
    ∀ a b : Fin 4,
      ConvertKeyToFrequencies (Keys.getD (4 * (b : ℕ) + (a : ℕ)) ' ')
        = ⟨DTMF0.getD (a : ℕ) 0, DTMF1.getD (b : ℕ) 0⟩ := by
  constructor
  · decide
  · decide

/-- Claim C5: each `Random` call replaces the 32-bit state `s` by
`(1664525 * s + 1013904223) mod 2^32` and returns `(newState >> 8) / 2^24`,
which lies in `[0, 1)`; the value stream from a fixed state is one fixed
sequence (the tail of the stream from `s` is the stream from `nextState s`,
so the whole sequence is determined by the seed alone). -/
theorem random_contract (s : ℕ) :
    (RandomC s).2 = (1664525 * s + 1013904223) % 2 ^ 32 ∧
    (RandomC s).1 = ((RandomC s).2 / 2 ^ 8 : ℕ) / (2 ^ 24 : ℚ) ∧
    0 ≤ (RandomC s).1 ∧ (RandomC s).1 < 1 ∧
    ∀ n, randStream s (n + 1) = randStream (nextState s) n := by
  refine ⟨rfl, ?_, ?_, ?_, ?_⟩
  · show ((nextState s / 2 ^ 8 : ℕ) : ℚ) * ((1 : ℚ) / 16777216)
      = ((nextState s / 2 ^ 8 : ℕ) : ℚ) / (2 ^ 24 : ℚ)
    rw [mul_one_div]
    norm_num
  · exact mul_nonneg (Nat.cast_nonneg _) (by norm_num)
  · show ((nextState s / 2 ^ 8 : ℕ) : ℚ) * ((1 : ℚ) / 16777216) < 1
    have hlt : nextState s < 2 ^ 32 := Nat.mod_lt _ (by norm_num)
    have hdiv : nextState s / 2 ^ 8 < 2 ^ 24 := by omega
    have hcast : ((nextState s / 2 ^ 8 : ℕ) : ℚ) < (16777216 : ℚ) := by
      exact_mod_cast hdiv
    rw [mul_one_div, div_lt_one (by norm_num)]
    exact hcast
  · intro n
    show randVal s (n + 1) = randVal (nextState s) n
    unfold randVal
    rw [Function.iterate_succ_apply]

/-- Claim C7: with `samplingRateHz = 3266` and `sampleCount = 256`, the
classifier's bin-index computation maps 1209 Hz to bin 95
(`round(94.77) = 95`), and any frequency whose scaled value is exactly
`x + 0.5` lands on bin `x + 1` (the half-way case rounds up). -/
theorem binIndex_rounding :
    binIndexC 1209 = 95 ∧
    ∀ (x : ℤ) (f : ℚ),
      f / SamplingFrequency * (SampleLength : ℚ) = (x : ℚ) + 1 / 2 →
      binIndexC f = x + 1 := by
  constructor
  · norm_num [binIndexC, ctrunc, SamplingFrequency, SampleLength, Log2SampleLength]
  · intro x f h
    unfold binIndexC ctrunc
    rw [h]
    have hx : (x : ℚ) + 1 / 2 + 1 / 2 = ((x + 1 : ℤ) : ℚ) := by
      push_cast
      ring
    rw [hx]
    split
    · exact Int.ceil_intCast _
    · exact Int.floor_intCast _

/-- Witness for C7: `f = 8165/256` scales to exactly `2.5` and rounds up to
bin `3`. -/
theorem binIndex_rounding_witness : binIndexC (8165 / 256) = 3 := by
  have h : (8165 / 256 : ℚ) / SamplingFrequency * (SampleLength : ℚ)
      = ((2 : ℤ) : ℚ) + 1 / 2 := by
    norm_num [SamplingFrequency, SampleLength, Log2SampleLength]
  simpa using binIndex_rounding.2 2 (8165 / 256) h

/-- Claim C6: for every frequency pair, sample count, sine function and PRNG
state, the synthesized buffer has exactly `sampleCount` samples, and sample
`i` equals `4 * noise_i + sin((i*f0/SR + phase0)*2π) + sin((i*f1/SR + phase1)*2π)`
where `noise_i` is the `(i+1)`-st random draw, `phase0` the draw after all
the noise, and `phase1` the draw after that.  No validity check restricts the
frequencies, and the output is a function of the draws alone. -/
theorem synthesize_spec (F : FrequencyPair) (n : ℕ) (sinf : ℚ → ℚ) (s : ℕ) :
    (synthesize F n sinf s).1.length = n ∧
    ∀ i, i < n →
      (synthesize F n sinf s).1.getD i 0 =
        4 * randVal s i
          + sinf (((i : ℕ) * F.f0 / SamplingFrequency + randVal s n) * TwoPi)
          + sinf (((i : ℕ) * F.f1 / SamplingFrequency + randVal s (n + 1)) * TwoPi) := by
  have hnoise : ((randList n s).1.map (fun r => 4 * r)).length = n := by
    rw [List.length_map, randList_length]
  have hsig1 : (addToneFrom F.f0 (RandomC (randList n s).2).1 sinf 0
      ((randList n s).1.map (fun r => 4 * r))).length = n := by
    rw [addToneFrom_length, hnoise]
  constructor
  · show (addToneFrom F.f1 _ sinf 0 _).length = n
    rw [addToneFrom_length, hsig1]
  · intro i hi
    show (addToneFrom F.f1 (RandomC (RandomC (randList n s).2).2).1 sinf 0
        (addToneFrom F.f0 (RandomC (randList n s).2).1 sinf 0
          ((randList n s).1.map (fun r => 4 * r)))).getD i 0 = _
    rw [addToneFrom_getD _ _ _ _ 0 i (by rw [hsig1]; exact hi),
      addToneFrom_getD _ _ _ _ 0 i (by rw [hnoise]; exact hi)]
    have hmap : ((randList n s).1.map (fun r => 4 * r)).getD i 0 =
        4 * (randList n s).1.getD i 0 := by
      have hlt : i < (randList n s).1.length := by
        rw [randList_length]
        exact hi
      rw [List.getD_eq_getElem _ 0 (by rw [hnoise]; exact hi),
        List.getD_eq_getElem _ 0 hlt, List.getElem_map]
    rw [hmap, randList_getD n s i hi]
    have hp0 : (RandomC (randList n s).2).1 = randVal s n := by
      unfold randVal
      rw [randList_snd]
    have hp1 : (RandomC (RandomC (randList n s).2).2).1 = randVal s (n + 1) := by
      unfold randVal
      rw [RandomC_snd, randList_snd, Function.iterate_succ_apply']
    rw [hp0, hp1]
    norm_num

/-- Witness for C6 at one sample of a valid tone pair, with the sine stubbed
to zero; the sample is exactly four times the first random draw. -/
theorem synthesize_spec_witness :
    (synthesize ⟨1209, 697⟩ 1 (fun _ => (0 : ℚ)) 0).1.length = 1 ∧
    (synthesize ⟨1209, 697⟩ 1 (fun _ => (0 : ℚ)) 0).1.getD 0 0
      = 4 * randVal 0 0 + 0 + 0 :=
  ⟨(synthesize_spec ⟨1209, 697⟩ 1 (fun _ => 0) 0).1,
   (synthesize_spec ⟨1209, 697⟩ 1 (fun _ => 0) 0).2 0 (by decide)⟩

lemma processKeysM_length (sinf : ℚ → ℚ) :
    ∀ (l : List Char) (s : ℕ), (processKeysM sinf l s).1.length = l.length := by
  intro l
  induction l with
  | nil => intro s; rfl
  | cons c rest ih =>
    intro s
    simp only [processKeysM]
    by_cases h : (lookupKey c).f0 ≠ 0
    · rw [if_pos h]
      simp only [List.length_cons]
      rw [ih]
    · rw [if_neg h]
      simp only [List.length_cons]
      rw [ih]

lemma processKeysM_cons_pos (sinf : ℚ → ℚ) (c : Char) (rest : List Char) (s : ℕ)
    (h : (lookupKey c).f0 ≠ 0) :
    (processKeysM sinf (c :: rest) s).1
      = KeyResult.demonstrated (lookupKey c)
        :: (processKeysM sinf rest
            ((synthesize (lookupKey c) SampleLength sinf s).2)).1 := by
  simp only [processKeysM, if_pos h]

/-- Claim C8: a character whose upper-cased form is not in the key table is
reported as `unknownKey`; the tone synthesis is not invoked for it (the
pseudo-random state is left untouched, and synthesis is the only consumer of
that state in the loop), and the remaining characters are still processed
(the results of the rest follow unchanged, one result per input key).  The
characters of this loop come from an argv string, which is NUL-terminated
and therefore never contains the NUL character itself; the second hypothesis
records that domain fact, since `strchr` would match the terminator for NUL
rather than miss. -/
theorem unknown_key_skips (sinf : ℚ → ℚ) (c : Char) (rest : List Char) (s : ℕ)
    (hc : toupperC c ∉ Keys) (hnul : toupperC c ≠ Char.ofNat 0) :
    (processKeysM sinf (c :: rest) s).1
        = KeyResult.unknownKey c :: (processKeysM sinf rest s).1 ∧
    (processKeysM sinf (c :: rest) s).2 = (processKeysM sinf rest s).2 ∧
    (processKeysM sinf (c :: rest) s).1.length = (c :: rest).length := by
  have hF : lookupKey c = ⟨0, 0⟩ := by
    unfold lookupKey ConvertKeyToFrequencies
    rw [(strchrIdx_eq_none_iff _ _).mpr ⟨hc, hnul⟩]
  have hcond : ¬ ((lookupKey c).f0 ≠ 0) := by
    rw [hF]
    simp
  refine ⟨?_, ?_, processKeysM_length sinf (c :: rest) s⟩
  · simp only [processKeysM, if_neg hcond]
  · simp only [processKeysM, if_neg hcond]

/-- Witness for C8 at the concrete unknown character `'x'`. -/
theorem unknown_key_skips_witness :
    (processKeysM (fun _ => 0) ['x'] 7).1
        = KeyResult.unknownKey 'x' :: (processKeysM (fun _ => 0) [] 7).1 ∧
    (processKeysM (fun _ => 0) ['x'] 7).2 = (processKeysM (fun _ => 0) [] 7).2 :=
  ⟨(unknown_key_skips (fun _ => 0) 'x' [] 7 (by decide) (by decide)).1,
   (unknown_key_skips (fun _ => 0) 'x' [] 7 (by decide) (by decide)).2.1⟩

/-- Claim C9: `main` folds key characters to uppercase before the lookup in
both input modes, so each lowercase letter a-d resolves to the same
frequency pair as its uppercase counterpart and is processed as a valid key
(nonzero first frequency, a `demonstrated` result in the batch loop). -/
theorem lowercase_keys :
    (toupperC 'a' = 'A' ∧ toupperC 'b' = 'B' ∧ toupperC 'c' = 'C'
      ∧ toupperC 'd' = 'D') ∧
    (lookupKey 'a' = ConvertKeyToFrequencies 'A' ∧ (lookupKey 'a').f0 ≠ 0) ∧
    (lookupKey 'b' = ConvertKeyToFrequencies 'B' ∧ (lookupKey 'b').f0 ≠ 0) ∧
    (lookupKey 'c' = ConvertKeyToFrequencies 'C' ∧ (lookupKey 'c').f0 ≠ 0) ∧
    (lookupKey 'd' = ConvertKeyToFrequencies 'D' ∧ (lookupKey 'd').f0 ≠ 0) ∧
    ∀ (sinf : ℚ → ℚ) (s : ℕ),
      (processKeysM sinf ['a', 'b', 'c', 'd'] s).1 =
        [KeyResult.demonstrated (ConvertKeyToFrequencies 'A'),
         KeyResult.demonstrated (ConvertKeyToFrequencies 'B'),
         KeyResult.demonstrated (ConvertKeyToFrequencies 'C'),
         KeyResult.demonstrated (ConvertKeyToFrequencies 'D')] := by
  refine ⟨by decide, by decide, by decide, by decide, by decide, ?_⟩
  intro sinf s
  rw [processKeysM_cons_pos sinf _ _ _ (by decide),
    processKeysM_cons_pos sinf _ _ _ (by decide),
    processKeysM_cons_pos sinf _ _ _ (by decide),
    processKeysM_cons_pos sinf _ _ _ (by decide)]
  simp only [processKeysM]
  rw [(by decide : lookupKey 'a' = ConvertKeyToFrequencies 'A'),
    (by decide : lookupKey 'b' = ConvertKeyToFrequencies 'B'),
    (by decide : lookupKey 'c' = ConvertKeyToFrequencies 'C'),
    (by decide : lookupKey 'd' = ConvertKeyToFrequencies 'D')]
